import Mathlib

/-! Shallow embedding of the streaming voice pipeline of the `epic-backend`
repository (`src/services/openai.service.js`), together with theorems that
settle the frozen claims about it.  JavaScript strings are modelled as
`List Char`; the JavaScript string operations used by the source
(`split(' ')`, `join(' ')`, `substring`, `trim`, and the global regular
expressions `[.!?]\s+` and `[,;:]\s+` driven by repeated `exec`) are
translated operation by operation.  Wall-clock timestamps, timing metadata,
token-usage numbers inside payloads and base64 audio bytes are not modelled;
where an event payload does not matter to a claim it is kept abstract.
Fractional constants of the source (`0.7`, `1.3`, `0.15`, ...) are embedded
as exact rationals (equivalently, scaled integer comparisons); the source
computes them in IEEE doubles, whose rounding agrees with the exact value on
all integer word counts and targets used in the theorems below. -/

namespace EpicBackend

/-- JavaScript strings, modelled as lists of characters. -/
abbrev Str := List Char

/-- The JavaScript `\s` character class (the members relevant here: ASCII
whitespace and no-break space; `String.prototype.trim` removes the same set). -/
def isWS (c : Char) : Bool :=
  c == ' ' || c == '\t' || c == '\n' || c == '\r' || c == '\x0b' || c == '\x0c' || c == ' '

/-- The non-whitespace characters of a string, in order. -/
def nonWhite (s : Str) : Str := s.filter fun c => !(isWS c)

/-- JavaScript `text.split(' ')`: split on every single space character;
`"".split(' ')` is `[""]`, and consecutive spaces produce empty fragments. -/
def splitSp : Str → List Str
  | [] => [[]]
  | c :: rest =>
    match splitSp rest with
    | [] => [[c]]
    | w :: ws => if c = ' ' then [] :: w :: ws else (c :: w) :: ws

/-- JavaScript `words.join(' ')`. -/
def joinSp : List Str → Str
  | [] => []
  | [w] => w
  | w :: x :: ws => w ++ ' ' :: joinSp (x :: ws)

/-- JavaScript `String.prototype.trim`: strip leading and trailing `\s`. -/
def trim (s : Str) : Str :=
  ((s.dropWhile fun c => isWS c).reverse.dropWhile fun c => isWS c).reverse

/-- Word count of `text.substring(0, j)` as the source computes it:
`text.substring(0, match.index).split(' ').length`. -/
def wordCountAt (text : Str) (j : Nat) : Nat := (splitSp (text.take j)).length

/-- Sentence-terminal punctuation, the `[.!?]` class of the source. -/
def isSentencePunct (c : Char) : Bool := c == '.' || c == '!' || c == '?'

/-- Pause punctuation, the `[,;:]` class of the source. -/
def isPausePunct (c : Char) : Bool := c == ',' || c == ';' || c == ':'

/-- Fuelled scanner for the global regex `[P]\s+`: starting at absolute index
`i` into the original text, with `s` the remaining suffix, produce the list of
`(match.index, match[0].length)` pairs exactly as repeated `regex.exec(text)`
does (leftmost match, greedy maximal `\s+`, resume at `lastIndex`). -/
def scanMF (p : Char → Bool) : Nat → Str → Nat → List (Nat × Nat)
  | 0, _, _ => []
  | _ + 1, [], _ => []
  | fuel + 1, c :: rest, i =>
    let ws := rest.takeWhile fun ch => isWS ch
    if p c = true ∧ ws ≠ [] then
      (i, 1 + ws.length) :: scanMF p fuel (rest.dropWhile fun ch => isWS ch) (i + 1 + ws.length)
    else
      scanMF p fuel rest (i + 1)

/-- All matches of `[P]\s+` in `text`, with their end offsets, in order. -/
def scanMatches (p : Char → Bool) (text : Str) : List (Nat × Nat) :=
  scanMF p text.length text 0

/-- What it means for `(j, len)` to be a match of the regex `[P]\s+` in
`text`: the match is at least two characters long, lies inside the text,
starts with a `P` character, continues with whitespace only, and its
whitespace run is maximal (the match ends at the end of the text or right
before a non-whitespace character). -/
def MatchSpec (p : Char → Bool) (text : Str) (j len : Nat) : Prop :=
  2 ≤ len ∧ j + len ≤ text.length ∧ p (text.getD j ' ') = true ∧
  (∀ k, j < k → k < j + len → isWS (text.getD k ' ') = true) ∧
  (j + len = text.length ∨ isWS (text.getD (j + len) ' ') = false)

/-- One `while ((match = re.exec(text)) !== null)` loop of
`findNaturalBreakPoint`: `Sum.inl v` is an early `return` of offset `v`
(word count at the match inside the `[lo/10 ⬝ target, hi/10 ⬝ target]`
acceptance window), `Sum.inr best` is falling out of the loop with the final
`bestBreak` (the last match whose word count is `≤ target`, else the initial
`best`). -/
def execLoop (text : Str) (t lo hi : Nat) : List (Nat × Nat) → Int → Sum Nat Int
  | [], best => Sum.inr best
  | (j, len) :: ms, best =>
    if lo * t ≤ 10 * wordCountAt text j ∧ 10 * wordCountAt text j ≤ hi * t then
      Sum.inl (j + len)
    else if wordCountAt text j ≤ t then execLoop text t lo hi ms (Int.ofNat (j + len))
    else execLoop text t lo hi ms best

/-- `findNaturalBreakPoint(text, targetLength)` from the source: return `-1`
when `text.split(' ').length < targetLength`; otherwise scan sentence-terminal
matches with window `[0.7⬝t, 1.3⬝t]`, returning the first in-window match end
or remembering the last match end with word count `≤ t`; if that leaves
`bestBreak === -1`, rescan with pause punctuation and window `[0.8⬝t, 1.2⬝t]`;
finally return `bestBreak`. -/
def findNaturalBreakPoint (text : Str) (targetLength : Nat) : Int :=
  if (splitSp text).length < targetLength then -1
  else
    match execLoop text targetLength 7 13 (scanMatches isSentencePunct text) (-1) with
    | Sum.inl v => Int.ofNat v
    | Sum.inr best =>
      if best = -1 then
        match execLoop text targetLength 8 12 (scanMatches isPausePunct text) (-1) with
        | Sum.inl v => Int.ofNat v
        | Sum.inr best2 => best2
      else best

/-- `estimateAudioDuration(text)`: `Math.round((wordCount / 2.5) * 1000)`,
which is exactly `wordCount * 400` milliseconds. -/
def estimateAudioDuration (text : Str) : Nat := (splitSp text).length * 400

/-- The events `generateStreamingVoiceCompletion` writes to the outbound
channel.  Payload fields a claim depends on are carried (`chunkIndex`, chunk
`text`, `totalChunks`); timestamps, timing blocks, token usage and base64
audio bytes are abstracted away. -/
inductive Ev
  | start
  | text (content : Str)
  | audio (chunkIndex : Nat) (text : Str)
  | audioError (chunkIndex : Nat) (text : Str)
  | done (totalChunks : Nat)
  | error
deriving DecidableEq, Repr

/-- One parsed `data:` line of the upstream SSE stream, as the source
classifies it: a content delta (`parsed.choices[0].delta.content`), a usage
record (`parsed.usage.total_tokens`), the `[DONE]` sentinel, or an
unparseable line that the `catch (parseError)` branch ignores. -/
inductive StreamItem
  | delta (content : Str)
  | usage (totalTokens : Nat)
  | doneSentinel
  | junk
deriving DecidableEq, Repr

/-- The voice-configuration fields that influence chunking, with the source's
defaults (`chunkSize = 30`, `minChunkSize = 15`, `maxChunkSize = 60`,
`naturalBreaks = true`). -/
structure VoiceSettings where
  chunkSize : Nat := 30
  minChunkSize : Nat := 15
  maxChunkSize : Nat := 60
  naturalBreaks : Bool := true
deriving DecidableEq, Repr

/-- The source's default `voiceSettings`. -/
def defaultVoiceSettings : VoiceSettings := {}

/-- The orchestrator's per-request state: the events written so far, the
`textBuffer`, `chunkIndex` and `totalTokens` variables of the source, whether
`res.end()` has been called, and (mirroring the source's `audioChunkTimes`
array, which records one entry per synthesis attempt) the list of chunk texts
handed to `convertTextToSpeech`. -/
structure OState where
  out : List Ev
  textBuffer : Str
  chunkIndex : Nat
  chunks : List Str
  totalTokens : Nat
  closed : Bool
deriving DecidableEq, Repr

/-- `convertTextToSpeech(text, res, chunkIndex, ...)`: when the `VOICE_KEY`
credential is absent (`voiceKey = false`) it returns without writing anything;
otherwise the synthesis outcome for this chunk index (`tts chunkIndex`,
covering both a non-2xx Deepgram response and a thrown fetch error in the
failure case) produces exactly one `audio` or `audio-error` event. -/
def convertTextToSpeech (voiceKey : Bool) (tts : Nat → Bool) (text : Str) (chunkIndex : Nat) :
    List Ev :=
  if voiceKey then
    if tts chunkIndex then [Ev.audio chunkIndex text] else [Ev.audioError chunkIndex text]
  else []

/-- The chunk-extraction logic run after a delta is appended to `textBuffer`:
the natural-break path (`naturalBreaks && words.length >= minChunkSize`, then
`findNaturalBreakPoint`, splitting at the break with `.trim()` on both parts)
and the word-count fallback (`words.length >= chunkSize || words.length >=
maxChunkSize`, slicing `min(words.length, chunkSize)` words).  Returns the
pair (chunkText, new textBuffer) when `shouldCreateChunk` ends up true. -/
def chunkDecision (cfg : VoiceSettings) (buf : Str) : Option (Str × Str) :=
  let words := splitSp buf
  let natural :=
    if cfg.naturalBreaks = true ∧ cfg.minChunkSize ≤ words.length then
      let b := findNaturalBreakPoint buf cfg.chunkSize
      if 0 < b then some (trim (buf.take b.toNat), trim (buf.drop b.toNat)) else none
    else none
  match natural with
  | some r => some r
  | none =>
    if cfg.chunkSize ≤ words.length ∨ cfg.maxChunkSize ≤ words.length then
      let n := min words.length cfg.chunkSize
      some (joinSp (words.take n), joinSp (words.drop n))
    else none

/-- Synthesis attempt for one finalized chunk: write the events
`convertTextToSpeech` produces, record the chunk (the source pushes an entry
onto `audioChunkTimes`), and increment `chunkIndex`. -/
def attemptChunk (vk : Bool) (tts : Nat → Bool) (st : OState) (chunkText : Str) : OState :=
  { st with
    out := st.out ++ convertTextToSpeech vk tts chunkText st.chunkIndex,
    chunks := st.chunks ++ [chunkText],
    chunkIndex := st.chunkIndex + 1 }

/-- Handling of one content delta (`if (delta.content) { ... }`): skip when
the delta is empty (falsy), else append it to `textBuffer`, write a `text`
event with the raw delta, and run the chunk-ready logic; a chunk is attempted
only when `shouldCreateChunk && chunkText` (non-empty chunk text). -/
def processDelta (cfg : VoiceSettings) (vk : Bool) (tts : Nat → Bool) (st : OState) (c : Str) :
    OState :=
  if c = [] then st
  else
    match chunkDecision cfg (st.textBuffer ++ c) with
    | none => { st with textBuffer := st.textBuffer ++ c, out := st.out ++ [Ev.text c] }
    | some (chunkText, rest) =>
      if chunkText = [] then { st with textBuffer := rest, out := st.out ++ [Ev.text c] }
      else attemptChunk vk tts { st with textBuffer := rest, out := st.out ++ [Ev.text c] }
        chunkText

/-- The orchestrator's read loop over the parsed upstream items.  A `[DONE]`
sentinel writes the single `done` event (with `totalChunks = chunkIndex`) and
calls `res.end()`, returning immediately — the source does not flush
`textBuffer` on this path.  Exhausting the upstream stream without a sentinel
(`reader.read()` reports `done`) flushes `textBuffer.trim()` as a final chunk
through the same synthesis step, and on this path the source writes no `done`
event and never calls `res.end()`. -/
def runO (cfg : VoiceSettings) (vk : Bool) (tts : Nat → Bool) (st : OState) :
    List StreamItem → OState
  | [] =>
    if trim st.textBuffer ≠ [] then attemptChunk vk tts st (trim st.textBuffer) else st
  | StreamItem.doneSentinel :: _ =>
    { st with out := st.out ++ [Ev.done st.chunkIndex], closed := true }
  | StreamItem.delta c :: rest => runO cfg vk tts (processDelta cfg vk tts st c) rest
  | StreamItem.usage n :: rest => runO cfg vk tts { st with totalTokens := n } rest
  | StreamItem.junk :: rest => runO cfg vk tts st rest

/-- The initial state after the `start` event has been written. -/
def initialState : OState :=
  { out := [Ev.start], textBuffer := [], chunkIndex := 0, chunks := [], totalTokens := 0,
    closed := false }

/-- `generateStreamingVoiceCompletion`: write the `start` event, then attempt
the single upstream fetch; if it fails (`connectOk = false`, covering both a
thrown fetch error and a non-ok response) the `catch` branch writes one
`error` event and ends the response; otherwise consume the stream. -/
def generateStreamingVoiceCompletion (cfg : VoiceSettings) (vk : Bool) (tts : Nat → Bool)
    (connectOk : Bool) (items : List StreamItem) : OState :=
  if connectOk then runO cfg vk tts initialState items
  else { initialState with out := initialState.out ++ [Ev.error], closed := true }

/-- The backoff delay the source computes after failed attempt `attempt`:
`Math.min(1000 * Math.pow(2, attempt - 1), 10000)`. -/
def backoffDelay (attempt : Nat) : Nat := min (1000 * 2 ^ (attempt - 1)) 10000

/-- The retry loop of `makeAPICall` (used by the non-streaming completion
path): attempts run from `attempt` while `remaining` attempts are allowed;
a failure on the final attempt (`attempt === retries`) rethrows, otherwise the
loop sleeps `backoffDelay attempt` and retries.  Returns whether the call
succeeded together with the list of backoff delays slept. -/
def makeAPICallGo (ok : Nat → Bool) : Nat → Nat → Bool × List Nat
  | _, 0 => (false, [])
  | attempt, remaining + 1 =>
    if ok attempt then (true, [])
    else if remaining = 0 then (false, [])
    else
      let r := makeAPICallGo ok (attempt + 1) remaining
      (r.1, backoffDelay attempt :: r.2)

/-- `makeAPICall(requestData, retries = 3)`: run the attempt loop from
attempt 1. -/
def makeAPICall (ok : Nat → Bool) (retries : Nat) : Bool × List Nat :=
  makeAPICallGo ok 1 retries

/-- `generateRandomizedTemperature()`:
`Math.min(1.0, Math.max(0.6, baseTemperature + (rand - 0.5) * 0.15 * 2))`
with `rand` the `Math.random()` draw, over exact rationals. -/
def generateRandomizedTemperature (baseTemperature rand : ℚ) : ℚ :=
  min 1 (max (6/10) (baseTemperature + (rand - 5/10) * (15/100) * 2))

/-- The SSE name of each event, as the source writes it. -/
def evName : Ev → Str
  | Ev.start => "start".toList
  | Ev.text _ => "text".toList
  | Ev.audio _ _ => "audio".toList
  | Ev.audioError _ _ => "audio-error".toList
  | Ev.done _ => "done".toList
  | Ev.error => "error".toList

/-- The first `res.write` of an event: `"event: <name>\n"`. -/
def eventHeader (e : Ev) : Str := "event: ".toList ++ evName e ++ ['\n']

/-- The second `res.write` of an event: `"data: <json>\n\n"`, with the JSON
serialization kept abstract as `payload e`. -/
def dataLine (payload : Ev → Str) (e : Ev) : Str :=
  "data: ".toList ++ payload e ++ ['\n', '\n']

/-- The sequence of individual `res.write` calls the source issues for a list
of events: each event contributes its two adjacent writes, in order. -/
def writeCalls (payload : Ev → Str) : List Ev → List Str
  | [] => []
  | e :: es => eventHeader e :: dataLine payload e :: writeCalls payload es

/-- A complete SSE frame for one event: header line, data line, terminating
blank-line delimiter. -/
def frame (payload : Ev → Str) (e : Ev) : Str := eventHeader e ++ dataLine payload e

/-- Concatenation of a list of strings. -/
def flattenStr (l : List Str) : Str := l.foldr (· ++ ·) []

/-- Whether an event is an `audio` or `audio-error` event. -/
def isAudioEv : Ev → Bool
  | Ev.audio _ _ => true
  | Ev.audioError _ _ => true
  | _ => false

/-- Whether an event is the `done` event. -/
def isDoneEv : Ev → Bool
  | Ev.done _ => true
  | _ => false

/-- Whether an event is a `text` event. -/
def isTextEv : Ev → Bool
  | Ev.text _ => true
  | _ => false

/-- The `chunkIndex` carried by an `audio`/`audio-error` event. -/
def audioIdx : Ev → Option Nat
  | Ev.audio i _ => some i
  | Ev.audioError i _ => some i
  | _ => none

/-- The audio-leg events a run with credential present must produce for the
attempted chunks: for the `k`-th chunk, `audio k` on synthesis success and
`audio-error k` on failure. -/
def audioEvsOf (tts : Nat → Bool) (chunks : List Str) : List Ev :=
  (List.range chunks.length).map fun k =>
    if tts k then Ev.audio k (chunks.getD k []) else Ev.audioError k (chunks.getD k [])

/-- The concatenation of all delta contents of an item list: the full
accumulated model output. -/
def deltaCat (items : List StreamItem) : Str :=
  flattenStr (items.filterMap fun i =>
    match i with
    | StreamItem.delta c => some c
    | _ => none)

/-- Observational equivalence of orchestrator states up to the audio-leg
events: all state components agree, and the written events agree once
`audio`/`audio-error` events are removed. -/
def ObsEq (a b : OState) : Prop :=
  a.textBuffer = b.textBuffer ∧ a.chunkIndex = b.chunkIndex ∧ a.chunks = b.chunks ∧
  a.totalTokens = b.totalTokens ∧ a.closed = b.closed ∧
  a.out.filter (fun e => !(isAudioEv e)) = b.out.filter (fun e => !(isAudioEv e))

/-- Relation between a credential-absent run (`a`) and a credential-present
run (`b`): all state components agree and `a`'s events are exactly `b`'s
events with the audio leg removed. -/
def TextOnlyView (a b : OState) : Prop :=
  a.textBuffer = b.textBuffer ∧ a.chunkIndex = b.chunkIndex ∧ a.chunks = b.chunks ∧
  a.totalTokens = b.totalTokens ∧ a.closed = b.closed ∧
  a.out = b.out.filter (fun e => !(isAudioEv e))

/-! Basic lemmas about the string operations. -/

theorem splitSp_ne_nil (s : Str) : splitSp s ≠ [] := by
  cases s with
  | nil => simp [splitSp]
  | cons c rest =>
    cases hs : splitSp rest with
    | nil => simp [splitSp, hs]
    | cons w ws => by_cases hc : c = ' ' <;> simp [splitSp, hs, hc]

theorem joinSp_splitSp (s : Str) : joinSp (splitSp s) = s := by
  induction s with
  | nil => rfl
  | cons c rest ih =>
    cases hs : splitSp rest with
    | nil => exact absurd hs (splitSp_ne_nil rest)
    | cons w ws =>
      rw [hs] at ih
      by_cases hc : c = ' '
      · subst hc
        have hrw : splitSp (' ' :: rest) = [] :: w :: ws := by simp [splitSp, hs]
        rw [hrw]
        cases ws <;> simpa [joinSp] using ih
      · have hrw : splitSp (c :: rest) = (c :: w) :: ws := by simp [splitSp, hs, hc]
        rw [hrw]
        cases ws with
        | nil => simp only [joinSp] at ih ⊢; rw [ih]
        | cons y t =>
          simp only [joinSp] at ih ⊢
          rw [List.cons_append, ih]

theorem nonWhite_append (a b : Str) : nonWhite (a ++ b) = nonWhite a ++ nonWhite b :=
  List.filter_append a b

theorem nonWhite_dropWhileWS (s : Str) :
    nonWhite (s.dropWhile fun c => isWS c) = nonWhite s := by
  induction s with
  | nil => rfl
  | cons c rest ih =>
    by_cases hc : isWS c
    · simp [List.dropWhile, nonWhite, hc] at ih ⊢; exact ih
    · simp [List.dropWhile, hc]

theorem nonWhite_reverse (s : Str) : nonWhite s.reverse = (nonWhite s).reverse :=
  List.filter_reverse _ s

theorem nonWhite_trim (s : Str) : nonWhite (trim s) = nonWhite s := by
  unfold trim
  rw [nonWhite_reverse, nonWhite_dropWhileWS, nonWhite_reverse, List.reverse_reverse,
    nonWhite_dropWhileWS]

theorem nonWhite_eq_nil_of_trim (s : Str) (h : trim s = []) : nonWhite s = [] := by
  rw [← nonWhite_trim, h]; rfl

theorem flattenStr_append (a b : List Str) :
    flattenStr (a ++ b) = flattenStr a ++ flattenStr b := by
  induction a with
  | nil => rfl
  | cons x xs ih => simp [flattenStr, List.foldr_append] at ih ⊢; simp [ih]

theorem nonWhite_joinSp (ws : List Str) :
    nonWhite (joinSp ws) = flattenStr (ws.map nonWhite) := by
  induction ws with
  | nil => rfl
  | cons w t ih =>
    cases t with
    | nil => simp [joinSp, flattenStr, nonWhite]
    | cons x t2 =>
      simp only [joinSp] at ih ⊢
      rw [nonWhite_append]
      have : nonWhite (' ' :: joinSp (x :: t2)) = nonWhite (joinSp (x :: t2)) := by
        simp [nonWhite, List.filter, isWS]
      rw [this, ih]
      simp [flattenStr]

theorem nonWhite_take_drop (n : Nat) (s : Str) :
    nonWhite (s.take n) ++ nonWhite (s.drop n) = nonWhite s := by
  rw [← nonWhite_append, List.take_append_drop]

theorem nonWhite_joinSp_take_drop (n : Nat) (ws : List Str) :
    nonWhite (joinSp (ws.take n)) ++ nonWhite (joinSp (ws.drop n)) = nonWhite (joinSp ws) := by
  rw [nonWhite_joinSp, nonWhite_joinSp, nonWhite_joinSp, ← flattenStr_append,
    ← List.map_append, List.take_append_drop]

theorem chunkDecision_nonWhite (cfg : VoiceSettings) (buf chunkText rest : Str)
    (h : chunkDecision cfg buf = some (chunkText, rest)) :
    nonWhite chunkText ++ nonWhite rest = nonWhite buf := by
  unfold chunkDecision at h
  simp only [] at h
  split at h
  · next r hnat =>
    obtain rfl : r = (chunkText, rest) := by injection h
    split at hnat
    · split at hnat
      · simp only [Option.some.injEq, Prod.mk.injEq] at hnat
        obtain ⟨h1, h2⟩ := hnat
        rw [← h1, ← h2, nonWhite_trim, nonWhite_trim, nonWhite_take_drop]
      · cases hnat
    · cases hnat
  · next hnat =>
    split at h
    · simp only [Option.some.injEq, Prod.mk.injEq] at h
      obtain ⟨h1, h2⟩ := h
      rw [← h1, ← h2, nonWhite_joinSp_take_drop, joinSp_splitSp]
    · cases h

/-! Lemmas about the events a synthesis attempt produces. -/

theorem convertTTS_filter_done (vk : Bool) (tts : Nat → Bool) (ch : Str) (n : Nat) :
    (convertTextToSpeech vk tts ch n).filter isDoneEv = [] := by
  cases vk <;> cases h : tts n <;> simp [convertTextToSpeech, h, isDoneEv]

theorem convertTTS_filter_audio_true (tts : Nat → Bool) (ch : Str) (n : Nat) :
    (convertTextToSpeech true tts ch n).filter isAudioEv = convertTextToSpeech true tts ch n := by
  cases h : tts n <;> simp [convertTextToSpeech, h, isAudioEv]

theorem convertTTS_filter_not_audio (vk : Bool) (tts : Nat → Bool) (ch : Str) (n : Nat) :
    (convertTextToSpeech vk tts ch n).filter (fun e => !(isAudioEv e)) = [] := by
  cases vk <;> cases h : tts n <;> simp [convertTextToSpeech, h, isAudioEv]

theorem convertTTS_false (tts : Nat → Bool) (ch : Str) (n : Nat) :
    convertTextToSpeech false tts ch n = [] := rfl

theorem audioEvsOf_concat (tts : Nat → Bool) (chunks : List Str) (ch : Str) :
    audioEvsOf tts (chunks ++ [ch]) =
      audioEvsOf tts chunks ++
        [if tts chunks.length then Ev.audio chunks.length ch
         else Ev.audioError chunks.length ch] := by
  unfold audioEvsOf
  rw [List.length_append, List.length_singleton, List.range_succ, List.map_append]
  congr 1
  · apply List.map_congr_left
    intro k hk
    rw [List.mem_range] at hk
    rw [List.getD_append _ _ _ _ hk]
  · simp [List.getD_append_right _ _ _ _ (Nat.le_refl chunks.length)]

/-! State-shape lemmas for the orchestrator steps. -/

theorem attemptChunk_closed (vk : Bool) (tts : Nat → Bool) (st : OState) (ch : Str) :
    (attemptChunk vk tts st ch).closed = st.closed := rfl

theorem attemptChunk_buffer (vk : Bool) (tts : Nat → Bool) (st : OState) (ch : Str) :
    (attemptChunk vk tts st ch).textBuffer = st.textBuffer := rfl

theorem attemptChunk_chunks (vk : Bool) (tts : Nat → Bool) (st : OState) (ch : Str) :
    (attemptChunk vk tts st ch).chunks = st.chunks ++ [ch] := rfl

theorem attemptChunk_index (vk : Bool) (tts : Nat → Bool) (st : OState) (ch : Str) :
    (attemptChunk vk tts st ch).chunkIndex = st.chunkIndex + 1 := rfl

theorem attemptChunk_filter_done (vk : Bool) (tts : Nat → Bool) (st : OState) (ch : Str) :
    (attemptChunk vk tts st ch).out.filter isDoneEv = st.out.filter isDoneEv := by
  show (st.out ++ convertTextToSpeech vk tts ch st.chunkIndex).filter isDoneEv = _
  rw [List.filter_append, convertTTS_filter_done, List.append_nil]

theorem processDelta_closed (cfg : VoiceSettings) (vk : Bool) (tts : Nat → Bool) (st : OState)
    (c : Str) : (processDelta cfg vk tts st c).closed = st.closed := by
  unfold processDelta
  split
  · rfl
  · split
    · rfl
    · split
      · rfl
      · rfl

theorem processDelta_index_chunks (cfg : VoiceSettings) (vk : Bool) (tts : Nat → Bool)
    (st : OState) (c : Str) (h : st.chunkIndex = st.chunks.length) :
    (processDelta cfg vk tts st c).chunkIndex = (processDelta cfg vk tts st c).chunks.length := by
  unfold processDelta
  split
  · exact h
  · split
    · exact h
    · split
      · exact h
      · simp [attemptChunk_index, attemptChunk_chunks, h]

theorem processDelta_filter_done (cfg : VoiceSettings) (vk : Bool) (tts : Nat → Bool)
    (st : OState) (c : Str) :
    (processDelta cfg vk tts st c).out.filter isDoneEv = st.out.filter isDoneEv := by
  unfold processDelta
  split
  · rfl
  · split
    · simp [List.filter_append, isDoneEv]
    · split
      · simp [List.filter_append, isDoneEv]
      · rw [attemptChunk_filter_done]
        simp [List.filter_append, isDoneEv]

/-- Core invariant for the `[DONE]` path: if a sentinel occurs in the item
list and the state has written no `done` event yet (with `chunkIndex`
tracking the attempted chunks), the run ends with exactly one `done` event
carrying the number of attempted chunks, written last, and the channel is
then closed. -/
theorem runO_sentinel (cfg : VoiceSettings) (vk : Bool) (tts : Nat → Bool) :
    ∀ (items : List StreamItem) (st : OState), StreamItem.doneSentinel ∈ items →
      st.out.filter isDoneEv = [] → st.chunkIndex = st.chunks.length →
      (runO cfg vk tts st items).out.filter isDoneEv =
          [Ev.done (runO cfg vk tts st items).chunks.length] ∧
        (runO cfg vk tts st items).out.getLast? =
          some (Ev.done (runO cfg vk tts st items).chunks.length) ∧
        (runO cfg vk tts st items).closed = true := by
  intro items
  induction items with
  | nil => intro st hmem; exact absurd hmem (by simp)
  | cons i rest ih =>
    intro st hmem h0 hidx
    cases i with
    | doneSentinel =>
      refine ⟨?_, ?_, rfl⟩
      · show ((st.out ++ [Ev.done st.chunkIndex]).filter isDoneEv) = _
        simp [List.filter_append, isDoneEv, h0]
        exact hidx
      · show ((st.out ++ [Ev.done st.chunkIndex]).getLast?) = _
        rw [List.getLast?_concat]
        simp [hidx]
        rfl
    | delta c =>
      have hmem2 : StreamItem.doneSentinel ∈ rest := by
        cases hmem with
        | tail _ h => exact h
      exact ih (processDelta cfg vk tts st c) hmem2
        (by rw [processDelta_filter_done]; exact h0)
        (processDelta_index_chunks cfg vk tts st c hidx)
    | usage n =>
      have hmem2 : StreamItem.doneSentinel ∈ rest := by
        cases hmem with
        | tail _ h => exact h
      exact ih _ hmem2 h0 hidx
    | junk =>
      have hmem2 : StreamItem.doneSentinel ∈ rest := by
        cases hmem with
        | tail _ h => exact h
      exact ih _ hmem2 h0 hidx

/-! Audio-leg sequence invariant for runs with the credential present. -/

theorem attemptChunk_filter_audio (tts : Nat → Bool) (st : OState) (ch : Str)
    (h : st.out.filter isAudioEv = audioEvsOf tts st.chunks)
    (hidx : st.chunkIndex = st.chunks.length) :
    (attemptChunk true tts st ch).out.filter isAudioEv =
      audioEvsOf tts (attemptChunk true tts st ch).chunks := by
  show (st.out ++ convertTextToSpeech true tts ch st.chunkIndex).filter isAudioEv = _
  rw [List.filter_append, convertTTS_filter_audio_true, h, attemptChunk_chunks,
    audioEvsOf_concat, hidx]
  cases htts : tts st.chunks.length <;> simp [convertTextToSpeech, htts]

theorem processDelta_filter_audio (cfg : VoiceSettings) (tts : Nat → Bool) (st : OState)
    (c : Str) (h : st.out.filter isAudioEv = audioEvsOf tts st.chunks)
    (hidx : st.chunkIndex = st.chunks.length) :
    (processDelta cfg true tts st c).out.filter isAudioEv =
      audioEvsOf tts (processDelta cfg true tts st c).chunks := by
  unfold processDelta
  split
  · exact h
  · split
    · simp [List.filter_append, isAudioEv, h]
    · split
      · simp [List.filter_append, isAudioEv, h]
      · next chunkText rest _ _ =>
        have h2 : ((st.out ++ [Ev.text c]).filter isAudioEv) = audioEvsOf tts st.chunks := by
          simp [List.filter_append, isAudioEv, h]
        exact attemptChunk_filter_audio tts
          { st with textBuffer := rest, out := st.out ++ [Ev.text c] } chunkText h2 hidx

theorem runO_audio (cfg : VoiceSettings) (tts : Nat → Bool) :
    ∀ (items : List StreamItem) (st : OState),
      st.out.filter isAudioEv = audioEvsOf tts st.chunks →
      st.chunkIndex = st.chunks.length →
      (runO cfg true tts st items).out.filter isAudioEv =
          audioEvsOf tts (runO cfg true tts st items).chunks ∧
        (runO cfg true tts st items).chunkIndex = (runO cfg true tts st items).chunks.length := by
  intro items
  induction items with
  | nil =>
    intro st h hidx
    simp only [runO]
    split
    · exact ⟨attemptChunk_filter_audio tts st _ h hidx,
        by rw [attemptChunk_index, attemptChunk_chunks, hidx]; simp⟩
    · exact ⟨h, hidx⟩
  | cons i rest ih =>
    intro st h hidx
    cases i with
    | doneSentinel =>
      simp only [runO]
      refine ⟨?_, hidx⟩
      simp [List.filter_append, isAudioEv, h]
    | delta c =>
      exact ih (processDelta cfg true tts st c)
        (processDelta_filter_audio cfg tts st c h hidx)
        (processDelta_index_chunks cfg true tts st c hidx)
    | usage n => exact ih _ h hidx
    | junk => exact ih _ h hidx

theorem filterMap_audioIdx_eq (l : List Ev) :
    l.filterMap audioIdx = (l.filter isAudioEv).filterMap audioIdx := by
  induction l with
  | nil => rfl
  | cons e t ih => cases e <;> simp [audioIdx, isAudioEv, ih]

theorem filterMap_audioIdx_audioEvsOf (tts : Nat → Bool) (chunks : List Str) :
    (audioEvsOf tts chunks).filterMap audioIdx = List.range chunks.length := by
  unfold audioEvsOf
  generalize chunks.length = n
  induction n with
  | zero => rfl
  | succ m ih =>
    rw [List.range_succ, List.map_append, List.filterMap_append, ih]
    cases h : tts m <;> simp [audioIdx, h, List.range_succ]

/-! Synthesis outcomes do not influence anything but the audio events. -/

theorem attemptChunk_obsEq (vk : Bool) (tts tts2 : Nat → Bool) (st st2 : OState) (ch : Str)
    (h : ObsEq st st2) : ObsEq (attemptChunk vk tts st ch) (attemptChunk vk tts2 st2 ch) := by
  obtain ⟨h1, h2, h3, h4, h5, h6⟩ := h
  refine ⟨h1, by simp [attemptChunk, h2], by simp [attemptChunk, h3], h4, h5, ?_⟩
  show (st.out ++ convertTextToSpeech vk tts ch st.chunkIndex).filter _ =
    (st2.out ++ convertTextToSpeech vk tts2 ch st2.chunkIndex).filter _
  rw [List.filter_append, List.filter_append, convertTTS_filter_not_audio,
    convertTTS_filter_not_audio, h6]

theorem processDelta_obsEq (cfg : VoiceSettings) (vk : Bool) (tts tts2 : Nat → Bool)
    (st st2 : OState) (c : Str) (h : ObsEq st st2) :
    ObsEq (processDelta cfg vk tts st c) (processDelta cfg vk tts2 st2 c) := by
  obtain ⟨h1, h2, h3, h4, h5, h6⟩ := h
  unfold processDelta
  by_cases hc : c = []
  · simp only [if_pos hc]
    exact ⟨h1, h2, h3, h4, h5, h6⟩
  · simp only [if_neg hc]
    rw [← h1]
    have h6t : ((st.out ++ [Ev.text c]).filter fun e => !(isAudioEv e)) =
        ((st2.out ++ [Ev.text c]).filter fun e => !(isAudioEv e)) := by
      rw [List.filter_append, List.filter_append, h6]
    cases hdec : chunkDecision cfg (st.textBuffer ++ c) with
    | none => exact ⟨rfl, h2, h3, h4, h5, h6t⟩
    | some pr =>
      obtain ⟨chunkText, rest⟩ := pr
      by_cases hct : chunkText = []
      · simp only [if_pos hct]
        exact ⟨rfl, h2, h3, h4, h5, h6t⟩
      · simp only [if_neg hct]
        exact attemptChunk_obsEq vk tts tts2 _ _ chunkText ⟨rfl, h2, h3, h4, h5, h6t⟩

theorem runO_obsEq (cfg : VoiceSettings) (vk : Bool) (tts tts2 : Nat → Bool) :
    ∀ (items : List StreamItem) (st st2 : OState), ObsEq st st2 →
      ObsEq (runO cfg vk tts st items) (runO cfg vk tts2 st2 items) := by
  intro items
  induction items with
  | nil =>
    intro st st2 h
    obtain ⟨h1, h2, h3, h4, h5, h6⟩ := h
    simp only [runO]
    rw [← h1]
    split
    · exact attemptChunk_obsEq vk tts tts2 st st2 _ ⟨h1, h2, h3, h4, h5, h6⟩
    · exact ⟨h1, h2, h3, h4, h5, h6⟩
  | cons i rest ih =>
    intro st st2 h
    cases i with
    | doneSentinel =>
      obtain ⟨h1, h2, h3, h4, h5, h6⟩ := h
      simp only [runO]
      refine ⟨h1, h2, h3, h4, rfl, ?_⟩
      rw [List.filter_append, List.filter_append, h6, h2]
    | delta c => exact ih _ _ (processDelta_obsEq cfg vk tts tts2 st st2 c h)
    | usage n =>
      obtain ⟨h1, h2, h3, h4, h5, h6⟩ := h
      exact ih _ _ ⟨h1, h2, h3, rfl, h5, h6⟩
    | junk => exact ih _ _ h


/-! A credential-absent run is the credential-present run with the audio leg
removed. -/

theorem attemptChunk_textOnly (tts tts2 : Nat → Bool) (st st2 : OState) (ch : Str)
    (h : TextOnlyView st st2) :
    TextOnlyView (attemptChunk false tts st ch) (attemptChunk true tts2 st2 ch) := by
  obtain ⟨h1, h2, h3, h4, h5, h6⟩ := h
  refine ⟨h1, by simp [attemptChunk, h2], by simp [attemptChunk, h3], h4, h5, ?_⟩
  show st.out ++ convertTextToSpeech false tts ch st.chunkIndex =
    (st2.out ++ convertTextToSpeech true tts2 ch st2.chunkIndex).filter _
  rw [List.filter_append, convertTTS_filter_not_audio, convertTTS_false, ← h6,
    List.append_nil]

theorem processDelta_textOnly (cfg : VoiceSettings) (tts tts2 : Nat → Bool)
    (st st2 : OState) (c : Str) (h : TextOnlyView st st2) :
    TextOnlyView (processDelta cfg false tts st c) (processDelta cfg true tts2 st2 c) := by
  obtain ⟨h1, h2, h3, h4, h5, h6⟩ := h
  unfold processDelta
  by_cases hc : c = []
  · simp only [if_pos hc]
    exact ⟨h1, h2, h3, h4, h5, h6⟩
  · simp only [if_neg hc]
    rw [← h1]
    have h6t : st.out ++ [Ev.text c] =
        ((st2.out ++ [Ev.text c]).filter fun e => !(isAudioEv e)) := by
      rw [List.filter_append, ← h6]
      simp [isAudioEv]
    cases hdec : chunkDecision cfg (st.textBuffer ++ c) with
    | none => exact ⟨rfl, h2, h3, h4, h5, h6t⟩
    | some pr =>
      obtain ⟨chunkText, rest⟩ := pr
      by_cases hct : chunkText = []
      · simp only [if_pos hct]
        exact ⟨rfl, h2, h3, h4, h5, h6t⟩
      · simp only [if_neg hct]
        exact attemptChunk_textOnly tts tts2 _ _ chunkText ⟨rfl, h2, h3, h4, h5, h6t⟩

theorem runO_textOnly (cfg : VoiceSettings) (tts tts2 : Nat → Bool) :
    ∀ (items : List StreamItem) (st st2 : OState), TextOnlyView st st2 →
      TextOnlyView (runO cfg false tts st items) (runO cfg true tts2 st2 items) := by
  intro items
  induction items with
  | nil =>
    intro st st2 h
    obtain ⟨h1, h2, h3, h4, h5, h6⟩ := h
    simp only [runO]
    rw [← h1]
    split
    · exact attemptChunk_textOnly tts tts2 st st2 _ ⟨h1, h2, h3, h4, h5, h6⟩
    · exact ⟨h1, h2, h3, h4, h5, h6⟩
  | cons i rest ih =>
    intro st st2 h
    cases i with
    | doneSentinel =>
      obtain ⟨h1, h2, h3, h4, h5, h6⟩ := h
      simp only [runO]
      refine ⟨h1, h2, h3, h4, rfl, ?_⟩
      rw [List.filter_append, ← h6, h2]
      simp [isDoneEv, isAudioEv]
    | delta c => exact ih _ _ (processDelta_textOnly cfg tts tts2 st st2 c h)
    | usage n =>
      obtain ⟨h1, h2, h3, h4, h5, h6⟩ := h
      exact ih _ _ ⟨h1, h2, h3, rfl, h5, h6⟩
    | junk => exact ih _ _ h

/-! Non-whitespace content is preserved from the accumulated model output to
the attempted chunks (on the reader-exhaustion path with its final flush). -/

theorem processDelta_nonWhite (cfg : VoiceSettings) (vk : Bool) (tts : Nat → Bool)
    (st : OState) (c : Str) :
    flattenStr ((processDelta cfg vk tts st c).chunks.map nonWhite) ++
        nonWhite (processDelta cfg vk tts st c).textBuffer =
      flattenStr (st.chunks.map nonWhite) ++ (nonWhite st.textBuffer ++ nonWhite c) := by
  unfold processDelta
  by_cases hc : c = []
  · simp only [if_pos hc]
    simp [hc, nonWhite]
  · simp only [if_neg hc]
    cases hdec : chunkDecision cfg (st.textBuffer ++ c) with
    | none =>
      show flattenStr (st.chunks.map nonWhite) ++ nonWhite (st.textBuffer ++ c) = _
      rw [nonWhite_append]
    | some pr =>
      obtain ⟨chunkText, rest⟩ := pr
      have hkey := chunkDecision_nonWhite cfg (st.textBuffer ++ c) chunkText rest hdec
      rw [nonWhite_append] at hkey
      by_cases hct : chunkText = []
      · simp only [if_pos hct]
        show flattenStr (st.chunks.map nonWhite) ++ nonWhite rest = _
        rw [hct] at hkey
        simp only [nonWhite, List.filter_nil, List.nil_append] at hkey
        rw [show nonWhite rest = nonWhite st.textBuffer ++ nonWhite c from hkey]
      · simp only [if_neg hct]
        show flattenStr ((st.chunks ++ [chunkText]).map nonWhite) ++ nonWhite rest = _
        rw [List.map_append, flattenStr_append, List.append_assoc]
        congr 1
        show (nonWhite chunkText ++ []) ++ nonWhite rest =
          nonWhite st.textBuffer ++ nonWhite c
        rw [List.append_nil, hkey]

theorem runO_nonWhite (cfg : VoiceSettings) (vk : Bool) (tts : Nat → Bool) :
    ∀ (items : List StreamItem) (st : OState),
      (∀ i ∈ items, i ≠ StreamItem.doneSentinel) →
      flattenStr ((runO cfg vk tts st items).chunks.map nonWhite) =
        flattenStr (st.chunks.map nonWhite) ++ nonWhite st.textBuffer ++
          nonWhite (deltaCat items) := by
  intro items
  induction items with
  | nil =>
    intro st _
    simp only [runO]
    split
    · next hne =>
      rw [attemptChunk_chunks, List.map_append, flattenStr_append]
      show _ ++ (nonWhite (trim st.textBuffer) ++ []) = _
      rw [List.append_nil, nonWhite_trim]
      simp [deltaCat, flattenStr, nonWhite]
    · next hne =>
      have hnil : trim st.textBuffer = [] := by
        by_contra hx
        exact hne hx
      rw [nonWhite_eq_nil_of_trim st.textBuffer hnil]
      simp [deltaCat, flattenStr, nonWhite]
  | cons i rest ih =>
    intro st hns
    have hrest : ∀ j ∈ rest, j ≠ StreamItem.doneSentinel := fun j hj =>
      hns j (List.mem_cons_of_mem i hj)
    cases i with
    | doneSentinel => exact absurd rfl (hns StreamItem.doneSentinel (List.mem_cons_self _ _))
    | delta c =>
      show flattenStr ((runO cfg vk tts (processDelta cfg vk tts st c) rest).chunks.map
        nonWhite) = _
      rw [ih (processDelta cfg vk tts st c) hrest]
      have hd : deltaCat (StreamItem.delta c :: rest) = c ++ deltaCat rest := by
        simp [deltaCat, flattenStr]
      have hp := processDelta_nonWhite cfg vk tts st c
      rw [hd, nonWhite_append, hp]
      simp only [List.append_assoc]
    | usage n =>
      show flattenStr ((runO cfg vk tts _ rest).chunks.map nonWhite) = _
      rw [ih _ hrest]
      have hd : deltaCat (StreamItem.usage n :: rest) = deltaCat rest := by
        simp [deltaCat]
      rw [hd]
    | junk =>
      show flattenStr ((runO cfg vk tts st rest).chunks.map nonWhite) = _
      rw [ih st hrest]
      have hd : deltaCat (StreamItem.junk :: rest) = deltaCat rest := by
        simp [deltaCat]
      rw [hd]

/-! Soundness of the regex scanner: every reported match is a real
`[P]\s+` match with a maximal whitespace run. -/

theorem getD_drop (i : Nat) :
    ∀ (l : Str) (k : Nat) (d : Char), (l.drop i).getD k d = l.getD (i + k) d := by
  induction i with
  | zero => intro l k d; simp
  | succ m ih =>
    intro l k d
    cases l with
    | nil => simp
    | cons c t =>
      show (t.drop m).getD k d = (c :: t).getD (m + 1 + k) d
      rw [ih t k d]
      have he : m + 1 + k = (m + k) + 1 := by omega
      rw [he, List.getD_cons_succ]

theorem getD_mem (l : Str) : ∀ (n : Nat) (d : Char), n < l.length → l.getD n d ∈ l := by
  induction l with
  | nil => intro n d h; simp at h
  | cons c t ih =>
    intro n d h
    cases n with
    | zero => simp
    | succ m =>
      rw [List.getD_cons_succ]
      exact List.mem_cons_of_mem c (ih m d (by simpa using h))

theorem dropWhile_head_false (p : Char → Bool) :
    ∀ (l : Str) (x : Char) (xs : Str), l.dropWhile p = x :: xs → p x = false := by
  intro l
  induction l with
  | nil => intro x xs h; cases h
  | cons c t ih =>
    intro x xs h
    by_cases hp : p c = true
    · rw [List.dropWhile_cons_of_pos hp] at h
      exact ih x xs h
    · rw [List.dropWhile_cons_of_neg hp] at h
      obtain ⟨rfl, -⟩ := List.cons.inj h
      exact Bool.eq_false_iff.mpr hp

theorem drop_length_takeWhile (p : Char → Bool) :
    ∀ (l : Str), l.drop (l.takeWhile p).length = l.dropWhile p := by
  intro l
  induction l with
  | nil => rfl
  | cons c t ih =>
    by_cases hp : p c = true
    · rw [List.takeWhile_cons_of_pos hp, List.dropWhile_cons_of_pos hp]
      simpa using ih
    · rw [List.takeWhile_cons_of_neg hp, List.dropWhile_cons_of_neg hp]
      rfl

theorem length_takeWhile_add (p : Char → Bool) (l : Str) :
    (l.takeWhile p).length + (l.dropWhile p).length = l.length := by
  rw [← List.length_append, List.takeWhile_append_dropWhile]

theorem takeWhile_getD (p : Char → Bool) (l : Str) (m : Nat) (d : Char)
    (h : m < (l.takeWhile p).length) : l.getD m d = (l.takeWhile p).getD m d := by
  conv =>
    lhs
    rw [← List.takeWhile_append_dropWhile (p := p) (l := l)]
  exact List.getD_append _ _ _ _ h

theorem scanMF_sound (p : Char → Bool) :
    ∀ (fuel : Nat) (s : Str) (i : Nat) (text : Str), text.drop i = s → s.length ≤ fuel →
      ∀ m ∈ scanMF p fuel s i, MatchSpec p text m.1 m.2 := by
  intro fuel
  induction fuel with
  | zero => intro s i text _ _ m hm; simp [scanMF] at hm
  | succ f ih =>
    intro s i text hdrop hfuel m hm
    cases s with
    | nil => simp [scanMF] at hm
    | cons c rest =>
      have hlen : (text.drop i).length = rest.length + 1 := by rw [hdrop]; rfl
      rw [List.length_drop] at hlen
      have hil : i < text.length := by omega
      have hitext : text.length = i + rest.length + 1 := by omega
      have hgetDi : text.getD i ' ' = c := by
        have h0 := getD_drop i text 0 ' '
        rw [hdrop] at h0
        simpa using h0.symm
      have hdrop1 : text.drop (i + 1) = rest := by
        have h1 : text.drop (i + 1) = (text.drop i).drop 1 := by rw [List.drop_drop]
        rw [h1, hdrop]
        rfl
      have hrl : rest.length ≤ f := by
        simp only [List.length_cons] at hfuel
        omega
      rw [scanMF] at hm
      by_cases hcond : p c = true ∧ rest.takeWhile (fun ch => isWS ch) ≠ []
      · rw [if_pos hcond] at hm
        obtain ⟨hpc, hws⟩ := hcond
        have hw1 : 1 ≤ (rest.takeWhile fun ch => isWS ch).length :=
          Nat.one_le_iff_ne_zero.mpr (by simpa using hws)
        have hwle : (rest.takeWhile fun ch => isWS ch).length ≤ rest.length := by
          have := length_takeWhile_add (fun ch => isWS ch) rest
          omega
        have hdropnext :
            text.drop (i + 1 + (rest.takeWhile fun ch => isWS ch).length) =
              rest.dropWhile fun ch => isWS ch := by
          have h1 : text.drop (i + 1 + (rest.takeWhile fun ch => isWS ch).length) =
              (text.drop (i + 1)).drop (rest.takeWhile fun ch => isWS ch).length := by
            rw [List.drop_drop]
          rw [h1, hdrop1, drop_length_takeWhile]
        have hflen : (rest.dropWhile fun ch => isWS ch).length ≤ f := by
          have := length_takeWhile_add (fun ch => isWS ch) rest
          omega
        cases hm with
        | head =>
          show MatchSpec p text i (1 + (rest.takeWhile fun ch => isWS ch).length)
          refine ⟨by omega, by omega, by rw [hgetDi]; exact hpc, ?_, ?_⟩
          · intro k hk1 hk2
            have hq : k - (i + 1) < (rest.takeWhile fun ch => isWS ch).length := by omega
            have hkk : i + 1 + (k - (i + 1)) = k := by omega
            have h1 : text.getD k ' ' = rest.getD (k - (i + 1)) ' ' := by
              have h2 := getD_drop (i + 1) text (k - (i + 1)) ' '
              rw [hdrop1, hkk] at h2
              exact h2.symm
            rw [h1, takeWhile_getD (fun ch => isWS ch) rest _ ' ' hq]
            simpa using List.mem_takeWhile_imp
              (getD_mem (rest.takeWhile fun ch => isWS ch) _ ' ' hq)
          · rcases hd : rest.dropWhile (fun ch => isWS ch) with _ | ⟨x, xs⟩
            · left
              have hsum := length_takeWhile_add (fun ch => isWS ch) rest
              rw [hd] at hsum
              simp only [List.length_nil, Nat.add_zero] at hsum
              omega
            · right
              have hx : isWS x = false := by
                simpa using dropWhile_head_false (fun ch => isWS ch) rest x xs hd
              have h2 := getD_drop (i + 1 + (rest.takeWhile fun ch => isWS ch).length) text 0 ' '
              rw [hdropnext, hd] at h2
              have h3 : text.getD (i + (1 + (rest.takeWhile fun ch => isWS ch).length)) ' ' = x := by
                rw [show i + (1 + (rest.takeWhile fun ch => isWS ch).length) =
                    i + 1 + (rest.takeWhile fun ch => isWS ch).length + 0 by omega, ← h2,
                  List.getD_cons_zero]
              rw [h3]
              exact hx
        | tail _ hm =>
          exact ih _ _ text hdropnext hflen m hm
      · rw [if_neg hcond] at hm
        exact ih rest (i + 1) text hdrop1 hrl m hm

theorem scanMatches_sound (p : Char → Bool) (text : Str) :
    ∀ m ∈ scanMatches p text, MatchSpec p text m.1 m.2 :=
  scanMF_sound p text.length text 0 text rfl (Nat.le_refl _)

/-! Where the loop results of `findNaturalBreakPoint` can come from. -/

theorem execLoop_inl (text : Str) (t lo hi : Nat) :
    ∀ (ms : List (Nat × Nat)) (best : Int) (v : Nat),
      execLoop text t lo hi ms best = Sum.inl v → ∃ m ∈ ms, v = m.1 + m.2 := by
  intro ms
  induction ms with
  | nil => intro best v h; cases h
  | cons m0 ms ih =>
    intro best v h
    obtain ⟨j, len⟩ := m0
    rw [execLoop] at h
    split at h
    · obtain rfl : v = j + len := by
        have := Sum.inl.inj h
        omega
      exact ⟨(j, len), List.mem_cons_self _ _, rfl⟩
    · split at h
      · obtain ⟨m, hm, hv⟩ := ih _ v h
        exact ⟨m, List.mem_cons_of_mem _ hm, hv⟩
      · obtain ⟨m, hm, hv⟩ := ih _ v h
        exact ⟨m, List.mem_cons_of_mem _ hm, hv⟩

theorem execLoop_inr (text : Str) (t lo hi : Nat) :
    ∀ (ms : List (Nat × Nat)) (best b : Int),
      execLoop text t lo hi ms best = Sum.inr b →
      b = best ∨ ∃ m ∈ ms, b = Int.ofNat (m.1 + m.2) := by
  intro ms
  induction ms with
  | nil =>
    intro best b h
    exact Or.inl (Sum.inr.inj h).symm
  | cons m0 ms ih =>
    intro best b h
    obtain ⟨j, len⟩ := m0
    rw [execLoop] at h
    split at h
    · cases h
    · split at h
      · rcases ih _ b h with hb | ⟨m, hm, hv⟩
        · exact Or.inr ⟨(j, len), List.mem_cons_self _ _, hb⟩
        · exact Or.inr ⟨m, List.mem_cons_of_mem _ hm, hv⟩
      · rcases ih _ b h with hb | ⟨m, hm, hv⟩
        · exact Or.inl hb
        · exact Or.inr ⟨m, List.mem_cons_of_mem _ hm, hv⟩

theorem execLoop_inr_nonneg (text : Str) (t lo hi : Nat) :
    ∀ (ms : List (Nat × Nat)) (best b : Int), 0 ≤ best →
      execLoop text t lo hi ms best = Sum.inr b → 0 ≤ b := by
  intro ms
  induction ms with
  | nil =>
    intro best b hb h
    rw [← (Sum.inr.inj h)]
    exact hb
  | cons m0 ms ih =>
    intro best b hb h
    obtain ⟨j, len⟩ := m0
    rw [execLoop] at h
    split at h
    · cases h
    · split at h
      · exact ih _ b (Int.ofNat_nonneg _) h
      · exact ih _ b hb h

theorem execLoop_candidate (text : Str) (t lo hi : Nat) :
    ∀ (ms : List (Nat × Nat)) (best b : Int),
      (∃ m ∈ ms, wordCountAt text m.1 ≤ t) →
      execLoop text t lo hi ms best = Sum.inr b → 0 ≤ b := by
  intro ms
  induction ms with
  | nil =>
    intro best b hex _
    obtain ⟨m, hm, -⟩ := hex
    simp at hm
  | cons m0 ms ih =>
    intro best b hex h
    obtain ⟨j, len⟩ := m0
    rw [execLoop] at h
    split at h
    · cases h
    · split at h
      · exact execLoop_inr_nonneg text t lo hi ms _ b (Int.ofNat_nonneg _) h
      · next hwc =>
        obtain ⟨m, hm, hwcm⟩ := hex
        cases hm with
        | head => exact absurd hwcm hwc
        | tail _ hm2 => exact ih best b ⟨m, hm2, hwcm⟩ h

theorem findNaturalBreakPoint_cases (text : Str) (t : Nat) :
    findNaturalBreakPoint text t = -1 ∨
      ∃ m, (m ∈ scanMatches isSentencePunct text ∨ m ∈ scanMatches isPausePunct text) ∧
        findNaturalBreakPoint text t = Int.ofNat (m.1 + m.2) := by
  unfold findNaturalBreakPoint
  split
  · exact Or.inl rfl
  · cases hS : execLoop text t 7 13 (scanMatches isSentencePunct text) (-1) with
    | inl v =>
      obtain ⟨m, hm, rfl⟩ := execLoop_inl text t 7 13 _ _ v hS
      exact Or.inr ⟨m, Or.inl hm, rfl⟩
    | inr best =>
      dsimp only
      by_cases hb : best = -1
      · rw [if_pos hb]
        cases hP : execLoop text t 8 12 (scanMatches isPausePunct text) (-1) with
        | inl v =>
          obtain ⟨m, hm, rfl⟩ := execLoop_inl text t 8 12 _ _ v hP
          exact Or.inr ⟨m, Or.inr hm, rfl⟩
        | inr b2 =>
          rcases execLoop_inr text t 8 12 _ _ b2 hP with hb2 | ⟨m, hm, hv⟩
          · exact Or.inl hb2
          · exact Or.inr ⟨m, Or.inr hm, hv⟩
      · rw [if_neg hb]
        rcases execLoop_inr text t 7 13 _ _ best hS with hb2 | ⟨m, hm, hv⟩
        · exact absurd hb2 hb
        · exact Or.inr ⟨m, Or.inl hm, hv⟩

/-! Frame structure of the channel writes. -/

theorem flatten_writeCalls (payload : Ev → Str) :
    ∀ evs : List Ev,
      flattenStr (writeCalls payload evs) = flattenStr (evs.map (frame payload)) := by
  intro evs
  induction evs with
  | nil => rfl
  | cons e es ih =>
    show eventHeader e ++ (dataLine payload e ++ flattenStr (writeCalls payload es)) =
      (eventHeader e ++ dataLine payload e) ++ flattenStr (es.map (frame payload))
    rw [ih, List.append_assoc]

/-! The claims. -/

/-- C1: for every streaming voice request whose upstream token stream
completes (the `[DONE]` sentinel arrives), the orchestrator writes exactly one
`done` event, its `totalChunks` field equals the number of chunks attempted
(counting chunks whose synthesis failed — one entry per
`convertTextToSpeech` call), the `done` event is the last write, and the
channel is then closed. -/
theorem c1_single_done_totalChunks_close (cfg : VoiceSettings) (vk : Bool)
    (tts : Nat → Bool) (items : List StreamItem)
    (h : StreamItem.doneSentinel ∈ items) :
    (generateStreamingVoiceCompletion cfg vk tts true items).out.filter isDoneEv =
        [Ev.done (generateStreamingVoiceCompletion cfg vk tts true items).chunks.length] ∧
      (generateStreamingVoiceCompletion cfg vk tts true items).out.getLast? =
        some (Ev.done (generateStreamingVoiceCompletion cfg vk tts true items).chunks.length) ∧
      (generateStreamingVoiceCompletion cfg vk tts true items).closed = true := by
  have hrun := runO_sentinel cfg vk tts items initialState h (by rfl) (by rfl)
  simpa [generateStreamingVoiceCompletion] using hrun

/-- Witness for C1 at a concrete input. -/
theorem c1_single_done_totalChunks_close_witness :
    (StreamItem.doneSentinel ∈
        [StreamItem.delta ("hi".toList), StreamItem.doneSentinel]) ∧
      ((generateStreamingVoiceCompletion defaultVoiceSettings true (fun _ => true) true
          [StreamItem.delta ("hi".toList), StreamItem.doneSentinel]).out.filter isDoneEv =
          [Ev.done (generateStreamingVoiceCompletion defaultVoiceSettings true (fun _ => true)
            true [StreamItem.delta ("hi".toList), StreamItem.doneSentinel]).chunks.length] ∧
        (generateStreamingVoiceCompletion defaultVoiceSettings true (fun _ => true) true
            [StreamItem.delta ("hi".toList), StreamItem.doneSentinel]).out.getLast? =
          some (Ev.done (generateStreamingVoiceCompletion defaultVoiceSettings true
            (fun _ => true) true
            [StreamItem.delta ("hi".toList), StreamItem.doneSentinel]).chunks.length) ∧
        (generateStreamingVoiceCompletion defaultVoiceSettings true (fun _ => true) true
            [StreamItem.delta ("hi".toList), StreamItem.doneSentinel]).closed = true) :=
  ⟨by decide,
    c1_single_done_totalChunks_close defaultVoiceSettings true (fun _ => true)
      [StreamItem.delta ("hi".toList), StreamItem.doneSentinel] (by decide)⟩

/-- C2 (code evaluated at the failing input): when the upstream stream
completes via the `[DONE]` sentinel with a non-empty `textBuffer`, the source
discards the buffered text: no synthesis is attempted for it and the `done`
event reports `totalChunks = 0`.  The final-flush branch of the source runs
only when the reader is exhausted without a sentinel, which the normal
completion path never reaches because the `[DONE]` handler returns first. -/
theorem c2_done_path_discards_residual_buffer :
    (generateStreamingVoiceCompletion defaultVoiceSettings true (fun _ => true) true
        [StreamItem.delta ("Hello world.".toList), StreamItem.doneSentinel]).out =
      [Ev.start, Ev.text ("Hello world.".toList), Ev.done 0] ∧
    (generateStreamingVoiceCompletion defaultVoiceSettings true (fun _ => true) true
        [StreamItem.delta ("Hello world.".toList), StreamItem.doneSentinel]).textBuffer =
      "Hello world.".toList ∧
    trim (generateStreamingVoiceCompletion defaultVoiceSettings true (fun _ => true) true
        [StreamItem.delta ("Hello world.".toList), StreamItem.doneSentinel]).textBuffer ≠ [] ∧
    (generateStreamingVoiceCompletion defaultVoiceSettings true (fun _ => true) true
        [StreamItem.delta ("Hello world.".toList), StreamItem.doneSentinel]).chunks = [] := by
  decide

/-- C3 (counterexample): chunk extraction drops the separating space at each
chunk boundary, so concatenating the chunk texts does not reproduce the
accumulated model output exactly: for the 4-word delta, the two chunks
concatenate to a string different from the full output. -/
theorem c3_chunk_concat_loses_whitespace :
    (generateStreamingVoiceCompletion
        { chunkSize := 2, minChunkSize := 1, maxChunkSize := 4, naturalBreaks := false }
        true (fun _ => true) true [StreamItem.delta ("a b c d".toList)]).chunks =
      ["a b".toList, "c d".toList] ∧
    deltaCat [StreamItem.delta ("a b c d".toList)] = "a b c d".toList ∧
    flattenStr (generateStreamingVoiceCompletion
        { chunkSize := 2, minChunkSize := 1, maxChunkSize := 4, naturalBreaks := false }
        true (fun _ => true) true [StreamItem.delta ("a b c d".toList)]).chunks ≠
      "a b c d".toList := by
  decide

/-- C3 (amended): on every run whose upstream stream terminates by reader
exhaustion (so the final flush runs), the chunk texts reproduce the full
accumulated model output up to whitespace: concatenating the non-whitespace
characters of the chunks, in order, equals the non-whitespace characters of
the accumulated output.  Whitespace at chunk boundaries may be lost
(`trim`/`join` in the source), as the counterexample shows. -/
theorem c3_nonwhitespace_preserved (cfg : VoiceSettings) (vk : Bool)
    (tts : Nat → Bool) (items : List StreamItem)
    (h : ∀ i ∈ items, i ≠ StreamItem.doneSentinel) :
    flattenStr ((generateStreamingVoiceCompletion cfg vk tts true items).chunks.map nonWhite) =
      nonWhite (deltaCat items) := by
  have hrun := runO_nonWhite cfg vk tts items initialState h
  simpa [generateStreamingVoiceCompletion, initialState, flattenStr, nonWhite] using hrun

/-- Witness for the amended C3 at a concrete input. -/
theorem c3_nonwhitespace_preserved_witness :
    (∀ i ∈ [StreamItem.delta ("Hello to all.".toList)], i ≠ StreamItem.doneSentinel) ∧
      flattenStr ((generateStreamingVoiceCompletion defaultVoiceSettings true (fun _ => true)
          true [StreamItem.delta ("Hello to all.".toList)]).chunks.map nonWhite) =
        nonWhite (deltaCat [StreamItem.delta ("Hello to all.".toList)]) :=
  ⟨by decide,
    c3_nonwhitespace_preserved defaultVoiceSettings true (fun _ => true)
      [StreamItem.delta ("Hello to all.".toList)] (by decide)⟩

/-- C4: every event is written as one complete frame.  The source issues two
adjacent `res.write` calls per event (header line, then data line with the
terminating blank-line delimiter); concatenating the write calls of a run, on
every execution path (connection failure and `[DONE]`/exhaustion paths,
any credential state and synthesis outcomes), yields exactly the
concatenation of complete per-event frames in event order, so no two events'
bytes interleave on the channel. -/
theorem c4_writes_are_complete_frames (cfg : VoiceSettings) (vk : Bool) (tts : Nat → Bool)
    (connectOk : Bool) (items : List StreamItem) (payload : Ev → Str) :
    flattenStr (writeCalls payload
        (generateStreamingVoiceCompletion cfg vk tts connectOk items).out) =
      flattenStr ((generateStreamingVoiceCompletion cfg vk tts connectOk items).out.map
        (frame payload)) ∧
      ∀ e ∈ (generateStreamingVoiceCompletion cfg vk tts connectOk items).out,
        frame payload e =
          ("event: ".toList ++ evName e ++ ['\n']) ++
            ("data: ".toList ++ payload e ++ ['\n', '\n']) :=
  ⟨flatten_writeCalls payload _, fun _ _ => rfl⟩

/-- Witness for C4 at a concrete input. -/
theorem c4_writes_are_complete_frames_witness :
    flattenStr (writeCalls (fun _ => "p".toList)
        (generateStreamingVoiceCompletion defaultVoiceSettings true (fun _ => true) true
          [StreamItem.delta ("hi".toList), StreamItem.doneSentinel]).out) =
      flattenStr ((generateStreamingVoiceCompletion defaultVoiceSettings true (fun _ => true)
          true [StreamItem.delta ("hi".toList), StreamItem.doneSentinel]).out.map
        (frame (fun _ => "p".toList))) :=
  (c4_writes_are_complete_frames defaultVoiceSettings true (fun _ => true) true
    [StreamItem.delta ("hi".toList), StreamItem.doneSentinel] (fun _ => "p".toList)).1

/-- C5: with the synthesis credential present, the `chunkIndex` values carried
by the `audio`/`audio-error` events are exactly `0, 1, …, N-1` where `N` is
the number of chunks produced; each attempted chunk yields exactly one such
event (`audio` on success, `audio-error` on failure, per the synthesis
oracle); and synthesis outcomes influence neither the chunks produced nor any
non-audio event, so a per-chunk failure never cancels the token stream. -/
theorem c5_chunk_indices_gapless_failures_local (cfg : VoiceSettings)
    (tts tts2 : Nat → Bool) (connectOk : Bool) (items : List StreamItem) :
    (generateStreamingVoiceCompletion cfg true tts connectOk items).out.filterMap audioIdx =
        List.range
          (generateStreamingVoiceCompletion cfg true tts connectOk items).chunks.length ∧
      (generateStreamingVoiceCompletion cfg true tts connectOk items).out.filter isAudioEv =
        audioEvsOf tts (generateStreamingVoiceCompletion cfg true tts connectOk items).chunks ∧
      (generateStreamingVoiceCompletion cfg true tts connectOk items).chunks =
        (generateStreamingVoiceCompletion cfg true tts2 connectOk items).chunks ∧
      (generateStreamingVoiceCompletion cfg true tts connectOk items).out.filter
          (fun e => !(isAudioEv e)) =
        (generateStreamingVoiceCompletion cfg true tts2 connectOk items).out.filter
          (fun e => !(isAudioEv e)) := by
  cases connectOk with
  | false =>
    refine ⟨rfl, rfl, rfl, rfl⟩
  | true =>
    have hA := runO_audio cfg tts items initialState (by rfl) (by rfl)
    have hO := runO_obsEq cfg true tts tts2 items initialState initialState
      ⟨rfl, rfl, rfl, rfl, rfl, rfl⟩
    obtain ⟨-, -, hchunks, -, -, hout⟩ := hO
    refine ⟨?_, ?_, ?_, ?_⟩
    · show (runO cfg true tts initialState items).out.filterMap audioIdx = _
      rw [filterMap_audioIdx_eq, hA.1, filterMap_audioIdx_audioEvsOf]
      rfl
    · exact hA.1
    · exact hchunks
    · exact hout

/-- C8: with the synthesis credential absent, zero `audio` and zero
`audio-error` events are emitted, the `text` events are exactly those of the
credential-present run, and when the stream completes via the `[DONE]`
sentinel the run still ends with the single `done` event and the closed
channel (text-only degradation; the request does not fail). -/
theorem c8_missing_credential_text_only (cfg : VoiceSettings) (tts tts2 : Nat → Bool)
    (items : List StreamItem) :
    (generateStreamingVoiceCompletion cfg false tts true items).out.filter isAudioEv = [] ∧
      (generateStreamingVoiceCompletion cfg false tts true items).out.filter isTextEv =
        (generateStreamingVoiceCompletion cfg true tts2 true items).out.filter isTextEv ∧
      (StreamItem.doneSentinel ∈ items →
        (generateStreamingVoiceCompletion cfg false tts true items).out.filter isDoneEv =
            [Ev.done
              (generateStreamingVoiceCompletion cfg false tts true items).chunks.length] ∧
          (generateStreamingVoiceCompletion cfg false tts true items).closed = true) := by
  have hT := runO_textOnly cfg tts tts2 items initialState initialState
    ⟨rfl, rfl, rfl, rfl, rfl, rfl⟩
  obtain ⟨-, -, -, -, -, hout⟩ := hT
  refine ⟨?_, ?_, ?_⟩
  · show (runO cfg false tts initialState items).out.filter isAudioEv = []
    rw [show (runO cfg false tts initialState items).out =
        ((runO cfg true tts2 initialState items).out.filter fun e => !(isAudioEv e)) from hout,
      List.filter_filter]
    simp
  · show (runO cfg false tts initialState items).out.filter isTextEv = _
    rw [show (runO cfg false tts initialState items).out =
        ((runO cfg true tts2 initialState items).out.filter fun e => !(isAudioEv e)) from hout,
      List.filter_filter]
    apply List.filter_congr
    intro e _
    cases e <;> rfl
  · intro hs
    have hrun := runO_sentinel cfg false tts items initialState hs (by rfl) (by rfl)
    exact ⟨hrun.1, hrun.2.2⟩

/-- Witness for C8: the inner implication discharged at a concrete input. -/
theorem c8_missing_credential_text_only_witness :
    (generateStreamingVoiceCompletion defaultVoiceSettings false (fun _ => true) true
        [StreamItem.delta ("hi".toList), StreamItem.doneSentinel]).out.filter isDoneEv =
        [Ev.done (generateStreamingVoiceCompletion defaultVoiceSettings false (fun _ => true)
          true [StreamItem.delta ("hi".toList), StreamItem.doneSentinel]).chunks.length] ∧
      (generateStreamingVoiceCompletion defaultVoiceSettings false (fun _ => true) true
        [StreamItem.delta ("hi".toList), StreamItem.doneSentinel]).closed = true :=
  (c8_missing_credential_text_only defaultVoiceSettings (fun _ => true) (fun _ => true)
    [StreamItem.delta ("hi".toList), StreamItem.doneSentinel]).2.2 (by decide)

/-- C6 (counterexample): the streaming voice pipeline does not retry its
upstream connection.  With an outcome oracle whose first attempt fails and
whose second attempt would succeed, the voice pipeline emits `start` then
`error` and ends (the request fails), while `makeAPICall` — the retrying
client, used only by the non-streaming path — succeeds after one backoff
delay of 1000 ms. -/
theorem c6_voice_pipeline_does_not_retry :
    (generateStreamingVoiceCompletion defaultVoiceSettings true (fun _ => true)
        ((fun a => decide (2 ≤ a)) 1) [StreamItem.delta ("hi".toList)]).out =
      [Ev.start, Ev.error] ∧
    makeAPICall (fun a => decide (2 ≤ a)) 3 = (true, [1000]) := by
  decide

/-- C6 (amended): the streaming voice pipeline makes exactly one connection
attempt — if the single fetch fails, the request ends with an `error` event,
regardless of later attempts succeeding.  The retry logic lives in
`makeAPICall` (used by the non-streaming chat-completion path): 3 attempts
total by default, retrying on any failure, sleeping
`min(1000 * 2^(attempt-1), 10000)` ms between attempts (1000 then 2000 for
the default retry count, always capped at 10000). -/
theorem c6_single_attempt_and_backoff (ok : Nat → Bool) (cfg : VoiceSettings)
    (vk : Bool) (tts : Nat → Bool) (items : List StreamItem) :
    (ok 1 = false →
        (generateStreamingVoiceCompletion cfg vk tts (ok 1) items).out =
          [Ev.start, Ev.error]) ∧
      (makeAPICall ok 3).1 = (ok 1 || ok 2 || ok 3) ∧
      (ok 1 = false → ok 2 = false →
        (makeAPICall ok 3).2 = [backoffDelay 1, backoffDelay 2]) ∧
      backoffDelay 1 = 1000 ∧ backoffDelay 2 = 2000 ∧
      ∀ a, backoffDelay a ≤ 10000 := by
  refine ⟨?_, ?_, ?_, rfl, rfl, fun a => Nat.min_le_right _ _⟩
  · intro h1
    rw [h1]
    rfl
  · cases h1 : ok 1 <;> cases h2 : ok 2 <;> cases h3 : ok 3 <;>
      simp [makeAPICall, makeAPICallGo, h1, h2, h3]
  · intro h1 h2
    cases h3 : ok 3 <;> simp [makeAPICall, makeAPICallGo, h1, h2, h3]

/-- Witness for the amended C6 at a concrete oracle. -/
theorem c6_single_attempt_and_backoff_witness :
    (generateStreamingVoiceCompletion defaultVoiceSettings true (fun _ => true)
        ((fun _ => false) 1) []).out = [Ev.start, Ev.error] ∧
      (makeAPICall (fun _ => false) 3).2 = [backoffDelay 1, backoffDelay 2] :=
  ⟨(c6_single_attempt_and_backoff (fun _ => false) defaultVoiceSettings true (fun _ => true)
      []).1 rfl,
    (c6_single_attempt_and_backoff (fun _ => false) defaultVoiceSettings true (fun _ => true)
      []).2.2.1 rfl rfl⟩

/-- C10: for every configured base temperature and every random draw, the
temperature produced by `generateRandomizedTemperature` lies in the closed
interval `[0.6, 1.0]`; in particular a base temperature outside this interval
is clamped back into it (the result is always in the interval, so the band
around the base never escapes it). -/
theorem c10_temperature_clamped (baseTemperature rand : ℚ) :
    6/10 ≤ generateRandomizedTemperature baseTemperature rand ∧
      generateRandomizedTemperature baseTemperature rand ≤ 1 := by
  unfold generateRandomizedTemperature
  constructor
  · exact le_min (by norm_num) (le_max_left _ _)
  · exact min_le_left _ _

/-- C7 (counterexample): `findNaturalBreakPoint` returns the sentinel even
though a break candidate with word count at most the target exists: on
`"Hi. Bye"` with target 3 the text has a sentence-terminal candidate (match
`(2, 2)`, word count 1 ≤ 3), but the guard `words.length < targetLength`
returns `-1` before any candidate is examined. -/
theorem c7_sentinel_despite_candidate :
    findNaturalBreakPoint ("Hi. Bye".toList) 3 = -1 ∧
      (2, 2) ∈ scanMatches isSentencePunct ("Hi. Bye".toList) ∧
      wordCountAt ("Hi. Bye".toList) 2 ≤ 3 := by
  decide

/-- C7 (amended): when the text's word count reaches `targetLength`,
`findNaturalBreakPoint` returns an offset (not the sentinel) whenever some
sentence-terminal or pause candidate has word count at most the target; when
the word count is below `targetLength` the sentinel is returned regardless of
candidates (and the sentinel can also be returned when candidates exist but
all have word count above the target and outside the acceptance windows). -/
theorem c7_fallback_offset_when_candidate (text : Str) (t : Nat)
    (hlen : t ≤ (splitSp text).length)
    (hcand : ∃ m ∈ scanMatches isSentencePunct text ++ scanMatches isPausePunct text,
      wordCountAt text m.1 ≤ t) :
    findNaturalBreakPoint text t ≠ -1 := by
  unfold findNaturalBreakPoint
  rw [if_neg (by omega)]
  obtain ⟨m, hm, hwc⟩ := hcand
  rw [List.mem_append] at hm
  cases hS : execLoop text t 7 13 (scanMatches isSentencePunct text) (-1) with
  | inl v =>
    intro hcontra
    have hcontra2 : Int.ofNat v = -1 := hcontra
    norm_cast at hcontra2
  | inr best =>
    dsimp only
    by_cases hb : best = -1
    · rw [if_pos hb]
      cases hm with
      | inl hmS =>
        exfalso
        have hpos := execLoop_candidate text t 7 13 _ (-1) best ⟨m, hmS, hwc⟩ hS
        omega
      | inr hmP =>
        cases hP : execLoop text t 8 12 (scanMatches isPausePunct text) (-1) with
        | inl v =>
          intro hcontra
          have hcontra2 : Int.ofNat v = -1 := hcontra
          norm_cast at hcontra2
        | inr b2 =>
          dsimp only
          have hpos := execLoop_candidate text t 8 12 _ (-1) b2 ⟨m, hmP, hwc⟩ hP
          intro hcontra
          omega
    · rw [if_neg hb]
      exact hb

/-- Witness for the amended C7 at a concrete input. -/
theorem c7_fallback_offset_when_candidate_witness :
    findNaturalBreakPoint ("One two three. four".toList) 3 ≠ -1 :=
  c7_fallback_offset_when_candidate ("One two three. four".toList) 3 (by decide)
    ⟨(13, 2), by decide, by decide⟩

/-- C9: for every text buffer and target, `findNaturalBreakPoint` returns
either the sentinel `-1` or an offset `o` with `0 < o ≤ length text`, and a
returned offset never splits a punctuation-plus-whitespace pair: there is a
sentence-terminal or pause punctuation character strictly before `o`, every
character between it and `o` is whitespace, and `o` lies after the whole
whitespace run (it is the end of the text or is followed by a
non-whitespace character). -/
theorem c9_offset_in_range_and_after_whitespace (text : Str) (t : Nat) :
    findNaturalBreakPoint text t = -1 ∨
      ∃ o : Nat, findNaturalBreakPoint text t = Int.ofNat o ∧ 0 < o ∧ o ≤ text.length ∧
        ∃ j, j < o ∧ j + 1 < o ∧
          (isSentencePunct (text.getD j ' ') = true ∨ isPausePunct (text.getD j ' ') = true) ∧
          (∀ k, j < k → k < o → isWS (text.getD k ' ') = true) ∧
          (o = text.length ∨ isWS (text.getD o ' ') = false) := by
  rcases findNaturalBreakPoint_cases text t with h | ⟨m, hm, hv⟩
  · exact Or.inl h
  · cases hm with
    | inl hmS =>
      obtain ⟨h2, h3, h4, h5, h6⟩ := scanMatches_sound isSentencePunct text m hmS
      exact Or.inr ⟨m.1 + m.2, hv, by omega, h3, m.1, by omega, by omega, Or.inl h4, h5, h6⟩
    | inr hmP =>
      obtain ⟨h2, h3, h4, h5, h6⟩ := scanMatches_sound isPausePunct text m hmP
      exact Or.inr ⟨m.1 + m.2, hv, by omega, h3, m.1, by omega, by omega, Or.inr h4, h5, h6⟩

/-- Witness for C9 at a concrete input. -/
theorem c9_offset_in_range_and_after_whitespace_witness :
    findNaturalBreakPoint ("Hello. World".toList) 1 = -1 ∨
      ∃ o : Nat, findNaturalBreakPoint ("Hello. World".toList) 1 = Int.ofNat o ∧ 0 < o ∧
        o ≤ ("Hello. World".toList).length ∧
        ∃ j, j < o ∧ j + 1 < o ∧
          (isSentencePunct (("Hello. World".toList).getD j ' ') = true ∨
            isPausePunct (("Hello. World".toList).getD j ' ') = true) ∧
          (∀ k, j < k → k < o → isWS (("Hello. World".toList).getD k ' ') = true) ∧
          (o = ("Hello. World".toList).length ∨
            isWS (("Hello. World".toList).getD o ' ') = false) :=
  c9_offset_in_range_and_after_whitespace ("Hello. World".toList) 1

end EpicBackend
